import Mathlib

/-!
Verification of the GITHUB_TOOL repository: a LangGraph conversation loop
(src/main.py) driving a catalog of GitHub REST tools (src/tools.py,
src/url_parser.py).  The embedding below translates the Python source into
executable Lean definitions; the theorems at the end of the file settle the
frozen claims about the program.

Modelling conventions:
* a Python string is a Lean `String` (or a `List Char` where character-level
  processing matters, since Python strings are sequences of characters);
* the LLM collaborator and the network are external: they are passed in as
  function parameters (`llm`, `env`), so every definition stays a pure
  function of its inputs;
* Python exceptions are modelled with `Option`/`Except`: a code path that
  raises an uncaught exception returns `none`/`.error`.
-/

namespace GithubTool

/-- Embeds the ToolCall dicts produced by the model collaborator
(main.py lines 54-57): each has an `id`, a `name` and an `args` mapping.
Argument values are modelled as strings. -/
structure ToolCall where
  id : String
  name : String
  args : List (String × String)
deriving DecidableEq, Repr

/-- Embeds the langchain message classes used by main.py:
`HumanMessage(content)`, `AIMessage(content, tool_calls)` and
`ToolMessage(content, tool_call_id, name)` (main.py lines 75-79). -/
inductive Msg where
  | human (content : String)
  | ai (content : String) (tool_calls : List ToolCall)
  | tool (content : String) (tool_call_id : String) (name : String)
deriving DecidableEq, Repr

/-- Embeds `class State(BaseModel): messages: list` (main.py lines 16-17). -/
structure State where
  messages : List Msg
deriving DecidableEq, Repr

/-- Embeds `hasattr(msg, 'tool_calls')` plus the attribute itself: only
AI messages carry a `tool_calls` attribute (main.py lines 48, 122). -/
def msgToolCalls : Msg → Option (List ToolCall)
  | .ai _ calls => some calls
  | _ => none

/-- Embeds the keys of the TOOLS dict (main.py lines 31-39): the fixed
catalog of tool names.  The values of the dict are the tool functions;
invoking a looked-up function is modelled by the `env` parameter below. -/
def TOOLS : List String :=
  ["get_repo_info", "get_repo_languages", "get_repo_commits",
   "get_repo_branches", "get_repo_contributors", "list_repo_files",
   "get_file_content"]

/-- The tool functions perform network requests, so their behaviour is an
external collaborator: `env name args` is the outcome of
`TOOLS[name].invoke(args)` — `.ok` a serialized result string, `.error`
the text of a raised exception. -/
def ToolEnv : Type := String → List (String × String) → Except String String

/-- Python renders `str(KeyError(k))` with the key wrapped in single
quotes; this is the message produced when `TOOLS[tool_name]` misses
(main.py line 63, caught at line 82). -/
def keyErrorStr (k : String) : String :=
  String.singleton (Char.ofNat 39) ++ k ++ String.singleton (Char.ofNat 39)

/-- Embeds the body of the per-call loop of `execute_tools`
(main.py lines 54-89): look the name up in TOOLS (a miss raises KeyError),
invoke the tool, and on any exception build a ToolMessage whose content is
"Error executing " followed by the tool name, ": " and the exception text.
Success and failure alike yield a ToolMessage carrying the call's id and
name. -/
def runToolCall (env : ToolEnv) (tc : ToolCall) : Msg :=
  if tc.name ∈ TOOLS then
    match env tc.name tc.args with
    | .ok result => .tool result tc.id tc.name
    | .error e => .tool ("Error executing " ++ tc.name ++ ": " ++ e) tc.id tc.name
  else
    .tool ("Error executing " ++ tc.name ++ ": " ++ keyErrorStr tc.name) tc.id tc.name

/-- Embeds `execute_tools` (main.py lines 41-96): read the last message
(`state.messages[-1]` raises IndexError on an empty history, hence
`none`); if it has no `tool_calls` attribute or the list is empty, return
the state unchanged; otherwise execute every call in order and append the
resulting ToolMessages to the history. -/
def execute_tools (env : ToolEnv) (st : State) : Option State :=
  match st.messages.getLast? with
  | none => none
  | some last =>
    match msgToolCalls last with
    | none => some st
    | some [] => some st
    | some (c :: cs) => some ⟨st.messages ++ (c :: cs).map (runToolCall env)⟩

/-- The model collaborator of `agent_node`: from the accumulated history it
produces the content and tool calls of one new AI message
(main.py line 109). -/
def LLM : Type := List Msg → String × List ToolCall

/-- Embeds `agent_node` (main.py lines 98-115): invoke the LLM on the full
history and append the one resulting AI message. -/
def agent_node (llm : LLM) (st : State) : State :=
  ⟨st.messages ++ [Msg.ai (llm st.messages).1 (llm st.messages).2]⟩

/-- Embeds `tool_condition` (main.py lines 117-127): look at the last
message (IndexError on empty history, hence `none`); return "tools" when
it is an AI message with a non-empty `tool_calls` list, "end" otherwise. -/
def tool_condition (st : State) : Option String :=
  match st.messages.getLast? with
  | none => none
  | some last =>
    match msgToolCalls last with
    | some (_ :: _) => some "tools"
    | _ => some "end"

/-- The nodes of the compiled graph (main.py lines 130-153): the "agent"
node, the "tools" node and the terminal `__end__`. -/
inductive Node where
  | agent
  | tools
  | done
deriving DecidableEq, Repr

/-- Embeds the routing dict of `add_conditional_edges` (main.py
lines 140-147): "tools" maps to the tools node and "end" to `__end__`. -/
def cond_map (s : String) : Option Node :=
  if s = "tools" then some Node.tools
  else if s = "end" then some Node.done
  else none

/-- Embeds the edge structure of the graph (main.py lines 140-150): from
"agent", route through `tool_condition` and the conditional-edge dict;
from "tools", the unconditional edge back to "agent"; `__end__` is
terminal. -/
def nextNode : Node → State → Option Node
  | .agent, st => (tool_condition st).bind cond_map
  | .tools, _ => some Node.agent
  | .done, _ => none

/-- Embeds Python `url.rstrip("/")` (tools.py line 22, url_parser.py
line 7): remove every trailing slash. -/
def rstripSlash (l : List Char) : List Char :=
  ((l.reverse).dropWhile (fun c => c = '/')).reverse

/-- Embeds Python `url.replace(".git", "")` (tools.py line 23,
url_parser.py line 8): remove every occurrence of ".git", scanning left to
right without overlap, exactly as CPython's str.replace does. -/
def replaceAllGit : List Char → List Char
  | [] => []
  | '.' :: 'g' :: 'i' :: 't' :: rest => replaceAllGit rest
  | c :: rest => c :: replaceAllGit rest

/-- Decides whether ".git" occurs as a contiguous substring, used to state
when `replaceAllGit` is the identity. -/
def hasGit : List Char → Bool
  | [] => false
  | '.' :: 'g' :: 'i' :: 't' :: _ => true
  | _ :: rest => hasGit rest

/-- Embeds Python `url.split("/")` (tools.py line 24, url_parser.py
line 9): split at every slash, keeping empty segments, always yielding at
least one segment. -/
def splitSlash : List Char → List (List Char)
  | [] => [[]]
  | c :: rest =>
    if c = '/' then [] :: splitSlash rest
    else (c :: (splitSlash rest).headI) :: (splitSlash rest).tail

/-- Failure outcomes of parsing a repository URL.  The source raises an
IndexError at `parts[-2]` when fewer than two segments exist; the spec's
`InvalidRepositoryReference` is included so the two outcomes can be
compared — no code path produces it. -/
inductive ParseFailure where
  | indexError
  | invalidRepositoryReference
deriving DecidableEq, Repr

/-- Embeds `url_parser` (tools.py lines 20-27 and url_parser.py
lines 4-13, which are behaviourally identical): strip trailing slashes,
remove ".git" occurrences, split on "/", and take the last two segments
as (owner, repo).  `parts[-1]` always succeeds (split is never empty);
`parts[-2]` raises IndexError when only one segment exists. -/
def urlParser (url : List Char) : Except ParseFailure (List Char × List Char) :=
  let parts := splitSlash (replaceAllGit (rstripSlash url))
  if h : 2 ≤ parts.length then
    .ok (parts.get ⟨parts.length - 2, by omega⟩, parts.get ⟨parts.length - 1, by omega⟩)
  else
    .error ParseFailure.indexError

/-- Embeds Python dict lookup on a JSON object, used for
`"content" in response` / `response["content"]` (tools.py lines 93-94).
The value of the "content" field is the base64 text, a list of
characters. -/
def dictGet : List (String × List Char) → String → Option (List Char)
  | [], _ => none
  | (k, v) :: rest, key => if k = key then some v else dictGet rest key

/-- Embeds `os.getenv` (tools.py line 10) over an explicit process
environment, modelled as an association list. -/
def getenv (environment : List (String × String)) (key : String) : Option String :=
  match environment with
  | [] => none
  | (k, v) :: rest => if k = key then some v else getenv rest key

/-- Embeds `GITHUB_TOKEN = os.getenv("GITHUB_TOKEN")` (tools.py
line 10): `none` when the variable is absent — no check, no failure. -/
def GITHUB_TOKEN (environment : List (String × String)) : Option String :=
  getenv environment "GITHUB_TOKEN"

/-- Embeds Python f-string interpolation of an optional value:
`f"Bearer {GITHUB_TOKEN}"` renders `None` as the four characters
"None". -/
def pyStr : Option String → String
  | none => "None"
  | some s => s

/-- Embeds the module-level HEADERS dict (tools.py lines 11-14), built
unconditionally at import time from whatever `os.getenv` returned. -/
def HEADERS (environment : List (String × String)) : List (String × String) :=
  [("Authorization", "Bearer " ++ pyStr (GITHUB_TOKEN environment)),
   ("Accept", "application/vnd.github+json")]

/-- The standard base64 alphabet used by Python's `base64` module
(RFC 4648), as a list of 64 characters. -/
def b64table : List Char :=
  "ABCDEFGHIJKLMNOPQRSTUVWXYZabcdefghijklmnopqrstuvwxyz0123456789+/".toList

/-- Character of a six-bit group. -/
def b64char (n : Nat) : Char := b64table.getD n '?'

/-- Six-bit value of an alphabet character (inverse table lookup). -/
def b64value (c : Char) : Nat := b64table.indexOf c

/-- Embeds `base64.b64encode` on a byte list (RFC 4648 with padding):
three bytes become four alphabet characters; a final one- or two-byte
group is padded with "==" or "=". -/
def b64encodeBytes : List Nat → List Char
  | [] => []
  | [a] => [b64char (a / 4), b64char (a % 4 * 16), '=', '=']
  | [a, b] => [b64char (a / 4), b64char (a % 4 * 16 + b / 16), b64char (b % 16 * 4), '=']
  | a :: b :: c :: rest =>
    b64char (a / 4) :: b64char (a % 4 * 16 + b / 16) ::
    b64char (b % 16 * 4 + c / 64) :: b64char (c % 64) :: b64encodeBytes rest

/-- Embeds `base64.b64decode` (tools.py line 94) on well-formed base64
text: each group of four characters yields three bytes, or one/two bytes
when the group is "="-padded. -/
def b64decodeBytes : List Char → List Nat
  | c1 :: c2 :: c3 :: c4 :: rest =>
    if c3 = '=' then [b64value c1 * 4 + b64value c2 / 16]
    else if c4 = '=' then
      [b64value c1 * 4 + b64value c2 / 16,
       b64value c2 % 16 * 16 + b64value c3 / 4]
    else
      (b64value c1 * 4 + b64value c2 / 16) ::
      (b64value c2 % 16 * 16 + b64value c3 / 4) ::
      (b64value c3 % 4 * 64 + b64value c4) :: b64decodeBytes rest
  | _ => []

/-- Valid Unicode scalar values: what a Python `str` may contain, hence
what UTF-8 encoding is defined on. -/
def ValidCp (cp : Nat) : Prop := cp < 1114112 ∧ ¬ (55296 ≤ cp ∧ cp ≤ 57343)

instance (cp : Nat) : Decidable (ValidCp cp) := by
  unfold ValidCp; infer_instance

/-- UTF-8 encoding of one scalar value: one to four bytes depending on
its magnitude. -/
def utf8EncodeChar (cp : Nat) : List Nat :=
  if cp < 128 then [cp]
  else if cp < 2048 then [192 + cp / 64, 128 + cp % 64]
  else if cp < 65536 then [224 + cp / 4096, 128 + cp / 64 % 64, 128 + cp % 64]
  else [240 + cp / 262144, 128 + cp / 4096 % 64, 128 + cp / 64 % 64, 128 + cp % 64]

/-- UTF-8 encoding of a text (a list of scalar values). -/
def utf8Encode : List Nat → List Nat
  | [] => []
  | c :: rest => utf8EncodeChar c ++ utf8Encode rest

/-- Embeds CPython's UTF-8 decoder `bytes.decode("utf-8", errors=...)`
(tools.py line 94), parameterised by the error handler: on an invalid
maximal subpart of k bytes the decoder skips those k bytes and emits
`err k`.  Python's "ignore" handler emits nothing; the handler the spec
describes emits one replacement marker per undecodable byte.  Valid
sequences follow the Unicode table: leads C2-DF take one continuation
byte in 80-BF; leads E0-EF take two, the first restricted to A0-BF after
E0 and to 80-9F after ED; leads F0-F4 take three, the first restricted to
90-BF after F0 and 80-8F after F4. -/
def utf8DecodeWith (err : Nat → List Nat) : List Nat → List Nat
  | [] => []
  | b :: rest =>
    if b < 128 then b :: utf8DecodeWith err rest
    else if b < 194 then err 1 ++ utf8DecodeWith err rest
    else if b < 224 then
      match rest with
      | [] => err 1
      | c1 :: rest1 =>
        if 128 ≤ c1 ∧ c1 < 192 then
          ((b - 192) * 64 + (c1 - 128)) :: utf8DecodeWith err rest1
        else err 1 ++ utf8DecodeWith err (c1 :: rest1)
    else if b < 240 then
      match rest with
      | [] => err 1
      | c1 :: rest1 =>
        if (if b = 224 then 160 ≤ c1 ∧ c1 < 192
            else if b = 237 then 128 ≤ c1 ∧ c1 < 160
            else 128 ≤ c1 ∧ c1 < 192) then
          match rest1 with
          | [] => err 2
          | c2 :: rest2 =>
            if 128 ≤ c2 ∧ c2 < 192 then
              ((b - 224) * 4096 + (c1 - 128) * 64 + (c2 - 128)) :: utf8DecodeWith err rest2
            else err 2 ++ utf8DecodeWith err (c2 :: rest2)
        else err 1 ++ utf8DecodeWith err (c1 :: rest1)
    else if b < 245 then
      match rest with
      | [] => err 1
      | c1 :: rest1 =>
        if (if b = 240 then 144 ≤ c1 ∧ c1 < 192
            else if b = 244 then 128 ≤ c1 ∧ c1 < 144
            else 128 ≤ c1 ∧ c1 < 192) then
          match rest1 with
          | [] => err 2
          | c2 :: rest2 =>
            if 128 ≤ c2 ∧ c2 < 192 then
              match rest2 with
              | [] => err 3
              | c3 :: rest3 =>
                if 128 ≤ c3 ∧ c3 < 192 then
                  ((b - 240) * 262144 + (c1 - 128) * 4096 + (c2 - 128) * 64 + (c3 - 128)) ::
                    utf8DecodeWith err rest3
                else err 3 ++ utf8DecodeWith err (c3 :: rest3)
            else err 2 ++ utf8DecodeWith err (c2 :: rest2)
        else err 1 ++ utf8DecodeWith err (c1 :: rest1)
    else err 1 ++ utf8DecodeWith err rest
termination_by l => l.length

/-- The handler of `errors="ignore"`: skipped bytes produce no output
(what tools.py line 94 uses). -/
def ignoreHandler : Nat → List Nat := fun _ => []

/-- Modelled from the spec: the handler the spec attributes to the code,
one U+FFFD replacement marker per undecodable byte.  No code path uses
it; it exists to compare the spec's description with the source. -/
def replaceEachByteHandler : Nat → List Nat := fun k => List.replicate k 65533

/-- Result of `get_file_content` (tools.py lines 87-100): either the
dict with `file_path` and the decoded text (as a list of scalar values),
or the raw response when no "content" field is present. -/
inductive FileContentResult where
  | decoded (file_path : String) (content : List Nat)
  | raw (response : List (String × List Char))
deriving DecidableEq, Repr

/-- Embeds the response handling of `get_file_content` (tools.py
lines 91-100): if the JSON response has a "content" field, base64-decode
it and UTF-8-decode the bytes with `errors="ignore"`, returning the
file_path/content dict; otherwise fall through to the raw response. -/
def get_file_content (file_path : String) (response : List (String × List Char)) :
    FileContentResult :=
  match dictGet response "content" with
  | some enc => .decoded file_path (utf8DecodeWith ignoreHandler (b64decodeBytes enc))
  | none => .raw response

/-! ## Helper lemmas about the conversation loop -/

/-- Every executed call, successful or failing, yields a ToolMessage
carrying that call's id and name. -/
theorem runToolCall_shape (env : ToolEnv) (tc : ToolCall) :
    ∃ content, runToolCall env tc = Msg.tool content tc.id tc.name := by
  unfold runToolCall
  by_cases h : tc.name ∈ TOOLS
  · rw [if_pos h]
    cases henv : env tc.name tc.args with
    | ok r => exact ⟨r, rfl⟩
    | error e => exact ⟨"Error executing " ++ tc.name ++ ": " ++ e, rfl⟩
  · rw [if_neg h]
    exact ⟨"Error executing " ++ tc.name ++ ": " ++ keyErrorStr tc.name, rfl⟩

/-- When the last message is an AI message with a non-empty call list,
`execute_tools` appends exactly the mapped results. -/
theorem execute_tools_eq_append (env : ToolEnv) (st : State) (t : String)
    (c : ToolCall) (cs : List ToolCall)
    (hlast : st.messages.getLast? = some (Msg.ai t (c :: cs))) :
    execute_tools env st = some ⟨st.messages ++ (c :: cs).map (runToolCall env)⟩ := by
  unfold execute_tools
  rw [hlast]
  rfl

/-! ## Claim theorems for the conversation loop -/

/-- C1: executing the Acting step on an Assistant message carrying N tool
calls produces exactly N ToolResult messages, appended to the history in
order, the i-th carrying the id (and name) of the i-th tool call. -/
theorem execute_tools_result_per_call (env : ToolEnv) (st : State) (t : String)
    (calls : List ToolCall)
    (hlast : st.messages.getLast? = some (Msg.ai t calls)) (hne : calls ≠ []) :
    ∃ results : List Msg,
      execute_tools env st = some ⟨st.messages ++ results⟩ ∧
      results.length = calls.length ∧
      ∀ (i : Nat) (hi : i < calls.length) (hi2 : i < results.length),
        ∃ content, results.get ⟨i, hi2⟩ =
          Msg.tool content (calls.get ⟨i, hi⟩).id (calls.get ⟨i, hi⟩).name := by
  refine ⟨calls.map (runToolCall env), ?_, by simp, ?_⟩
  · cases calls with
    | nil => exact absurd rfl hne
    | cons c cs => exact execute_tools_eq_append env st t c cs hlast
  · intro i hi hi2
    obtain ⟨content, hc⟩ := runToolCall_shape env (calls.get ⟨i, hi⟩)
    refine ⟨content, ?_⟩
    rw [List.get_map]
    exact hc

/-- C1 witness: one tool call yields one matching result. -/
theorem execute_tools_result_per_call_example :
    ∃ results : List Msg,
      execute_tools (fun _ _ => Except.ok "42")
          ⟨[Msg.ai "m" [⟨"id1", "get_repo_info", []⟩]]⟩ =
        some ⟨[Msg.ai "m" [⟨"id1", "get_repo_info", []⟩]] ++ results⟩ ∧
      results.length = [(⟨"id1", "get_repo_info", []⟩ : ToolCall)].length ∧
      ∀ (i : Nat) (hi : i < [(⟨"id1", "get_repo_info", []⟩ : ToolCall)].length)
        (hi2 : i < results.length),
        ∃ content, results.get ⟨i, hi2⟩ =
          Msg.tool content
            (([(⟨"id1", "get_repo_info", []⟩ : ToolCall)]).get ⟨i, hi⟩).id
            (([(⟨"id1", "get_repo_info", []⟩ : ToolCall)]).get ⟨i, hi⟩).name :=
  execute_tools_result_per_call (fun _ _ => Except.ok "42")
    ⟨[Msg.ai "m" [⟨"id1", "get_repo_info", []⟩]]⟩ "m"
    [⟨"id1", "get_repo_info", []⟩] rfl (by simp)

/-- C2: after a Thinking step the router goes to Acting exactly when the
new Assistant message carries tool calls and to Done exactly when it does
not, and the Acting node always transitions back to Thinking. -/
theorem agent_routing_and_tools_edge (llm : LLM) (st : State) :
    (nextNode Node.agent (agent_node llm st) = some Node.tools ↔
      (llm st.messages).2 ≠ []) ∧
    (nextNode Node.agent (agent_node llm st) = some Node.done ↔
      (llm st.messages).2 = []) ∧
    (∀ st2 : State, nextNode Node.tools st2 = some Node.agent) := by
  have hlast : (agent_node llm st).messages.getLast? =
      some (Msg.ai (llm st.messages).1 (llm st.messages).2) := by
    simp [agent_node]
  refine ⟨?_, ?_, fun _ => rfl⟩ <;>
    · show ((tool_condition (agent_node llm st)).bind cond_map = _) ↔ _
      unfold tool_condition
      rw [hlast]
      cases (llm st.messages).2 with
      | nil => simp [msgToolCalls, cond_map]
      | cons c cs => simp [msgToolCalls, cond_map]

/-- C3: a tool call that fails (unknown name, or the invocation raising)
still produces a ToolResult whose content is an error string tagged with
the tool's name; the step returns a usable state (no exception) and the
graph continues to the Thinking node. -/
theorem failing_call_recoverable (env : ToolEnv) (pre : List Msg) (t : String)
    (calls : List ToolCall) (tc : ToolCall) (hmem : tc ∈ calls)
    (hfail : tc.name ∉ TOOLS ∨ ∃ e, env tc.name tc.args = Except.error e) :
    (∃ msg, runToolCall env tc =
        Msg.tool ("Error executing " ++ tc.name ++ ": " ++ msg) tc.id tc.name) ∧
    ∃ st2 : State, execute_tools env ⟨pre ++ [Msg.ai t calls]⟩ = some st2 ∧
      runToolCall env tc ∈ st2.messages ∧
      nextNode Node.tools st2 = some Node.agent := by
  constructor
  · by_cases h : tc.name ∈ TOOLS
    · rcases hfail with hfail | ⟨e, he⟩
      · exact absurd h hfail
      · exact ⟨e, by rw [runToolCall, if_pos h, he]⟩
    · exact ⟨keyErrorStr tc.name, by rw [runToolCall, if_neg h]⟩
  · cases calls with
    | nil => cases hmem
    | cons c cs =>
      refine ⟨⟨(pre ++ [Msg.ai t (c :: cs)]) ++ (c :: cs).map (runToolCall env)⟩,
        execute_tools_eq_append env _ t c cs (by simp), ?_, rfl⟩
      exact List.mem_append_right _ (List.mem_map_of_mem (runToolCall env) hmem)

/-- C3 witness: an unknown tool name is caught and the loop goes on. -/
theorem failing_call_recoverable_example :
    (∃ msg, runToolCall (fun _ _ => Except.ok "x") ⟨"1", "bogus", []⟩ =
        Msg.tool ("Error executing " ++ "bogus" ++ ": " ++ msg) "1" "bogus") ∧
    ∃ st2 : State,
      execute_tools (fun _ _ => Except.ok "x")
          ⟨[] ++ [Msg.ai "t" [⟨"1", "bogus", []⟩]]⟩ = some st2 ∧
      runToolCall (fun _ _ => Except.ok "x") ⟨"1", "bogus", []⟩ ∈ st2.messages ∧
      nextNode Node.tools st2 = some Node.agent :=
  failing_call_recoverable (fun _ _ => Except.ok "x") [] "t"
    [⟨"1", "bogus", []⟩] ⟨"1", "bogus", []⟩ (by simp)
    (Or.inl (by decide))

/-- C6: the Thinking step returns the prior history with exactly one
Assistant message appended, and the Acting step (when it returns) only
appends to the prior history; lengths never decrease. -/
theorem history_append_only (llm : LLM) (env : ToolEnv) (st st2 : State)
    (h : execute_tools env st = some st2) :
    ((agent_node llm st).messages = st.messages ++
        [Msg.ai (llm st.messages).1 (llm st.messages).2] ∧
      (agent_node llm st).messages.length = st.messages.length + 1) ∧
    ∃ extra, st2.messages = st.messages ++ extra ∧
      st.messages.length ≤ st2.messages.length := by
  refine ⟨⟨rfl, by simp [agent_node]⟩, ?_⟩
  unfold execute_tools at h
  split at h
  · cases h
  · split at h
    · cases h
      exact ⟨[], by simp, le_refl _⟩
    · cases h
      exact ⟨[], by simp, le_refl _⟩
    · cases h
      exact ⟨_, rfl, by simp⟩

/-- C6 witness: a no-call state passes through with history preserved. -/
theorem history_append_only_example :
    (((agent_node (fun _ => ("a", [])) ⟨[Msg.human "q"]⟩).messages =
        [Msg.human "q"] ++
          [Msg.ai (((fun (_ : List Msg) => (("a" : String), ([] : List ToolCall)))
            [Msg.human "q"])).1
            (((fun (_ : List Msg) => (("a" : String), ([] : List ToolCall)))
            [Msg.human "q"])).2] ∧
      (agent_node (fun _ => ("a", [])) ⟨[Msg.human "q"]⟩).messages.length =
        ([Msg.human "q"] : List Msg).length + 1) ∧
    ∃ extra, ([Msg.human "q"] : List Msg) = [Msg.human "q"] ++ extra ∧
      ([Msg.human "q"] : List Msg).length ≤ ([Msg.human "q"] : List Msg).length) :=
  history_append_only (fun _ => ("a", [])) (fun _ _ => Except.ok "")
    ⟨[Msg.human "q"]⟩ ⟨[Msg.human "q"]⟩ rfl

/-- C10: when the last message carries no tool calls (the attribute is
absent or the list empty), `execute_tools` returns the state with the
history entirely unchanged, invoking nothing. -/
theorem no_tool_calls_state_unchanged (env : ToolEnv) (st : State) (last : Msg)
    (hlast : st.messages.getLast? = some last)
    (hnc : msgToolCalls last = none ∨ msgToolCalls last = some []) :
    execute_tools env st = some st := by
  rcases hnc with h | h <;> simp [execute_tools, hlast, h]

/-- C10 witness: a human message as the last message leaves the state
untouched. -/
theorem no_tool_calls_state_unchanged_example :
    execute_tools (fun _ _ => Except.ok "x") ⟨[Msg.human "q"]⟩ =
      some ⟨[Msg.human "q"]⟩ :=
  no_tool_calls_state_unchanged (fun _ _ => Except.ok "x") ⟨[Msg.human "q"]⟩
    (Msg.human "q") rfl (Or.inl rfl)

/-! ## Helper lemmas about the URL parser -/

/-- A cons list starts with ".git" exactly when its head is '.' and its
tail starts with "git". -/
theorem take4_git_iff (c : Char) (r : List Char) :
    (c :: r).take 4 = ['.', 'g', 'i', 't'] ↔
      c = '.' ∧ ∃ r2, r = 'g' :: 'i' :: 't' :: r2 := by
  rcases r with _ | ⟨a, _ | ⟨b, _ | ⟨d, r2⟩⟩⟩ <;> simp [List.take]

/-- Unfolding of `replaceAllGit` at an occurrence of ".git". -/
theorem replaceAllGit_git (r : List Char) :
    replaceAllGit ('.' :: 'g' :: 'i' :: 't' :: r) = replaceAllGit r := rfl

/-- Unfolding of `replaceAllGit` when the list does not start with
".git". -/
theorem replaceAllGit_cons (c : Char) (r : List Char)
    (h : (c :: r).take 4 ≠ ['.', 'g', 'i', 't']) :
    replaceAllGit (c :: r) = c :: replaceAllGit r :=
  replaceAllGit.eq_3 c r
    (fun r2 hc hr => h ((take4_git_iff c r).mpr ⟨hc, r2, hr⟩))

/-- Unfolding of `hasGit` at an occurrence of ".git". -/
theorem hasGit_git (r : List Char) :
    hasGit ('.' :: 'g' :: 'i' :: 't' :: r) = true := rfl

/-- Unfolding of `hasGit` when the list does not start with ".git". -/
theorem hasGit_cons (c : Char) (r : List Char)
    (h : (c :: r).take 4 ≠ ['.', 'g', 'i', 't']) :
    hasGit (c :: r) = hasGit r :=
  hasGit.eq_3 c r
    (fun r2 hc hr => h ((take4_git_iff c r).mpr ⟨hc, r2, hr⟩))

/-- Removing ".git" occurrences never invents characters. -/
theorem mem_replaceAllGit : ∀ l : List Char, ∀ x, x ∈ replaceAllGit l → x ∈ l := by
  intro l
  induction l using replaceAllGit.induct with
  | case1 => intro x hx; cases hx
  | case2 rest ih =>
    intro x hx
    rw [replaceAllGit_git] at hx
    exact List.mem_cons_of_mem _ (List.mem_cons_of_mem _ (List.mem_cons_of_mem _
      (List.mem_cons_of_mem _ (ih x hx))))
  | case3 c rest hnm ih =>
    intro x hx
    have ht : (c :: rest).take 4 ≠ ['.', 'g', 'i', 't'] := fun hp => by
      obtain ⟨hc, r2, hr⟩ := (take4_git_iff c rest).mp hp
      exact hnm r2 hc hr
    rw [replaceAllGit_cons c rest ht] at hx
    rcases List.mem_cons.mp hx with rfl | hx
    · exact List.mem_cons_self x rest
    · exact List.mem_cons_of_mem _ (ih x hx)

/-- On a list with no ".git" occurrence, `replaceAllGit` is the
identity. -/
theorem replaceAllGit_of_not_hasGit :
    ∀ l : List Char, hasGit l = false → replaceAllGit l = l := by
  intro l
  induction l using replaceAllGit.induct with
  | case1 => intro _; rfl
  | case2 rest ih => intro h; rw [hasGit_git] at h; cases h
  | case3 c rest hnm ih =>
    intro h
    have ht : (c :: rest).take 4 ≠ ['.', 'g', 'i', 't'] := fun hp => by
      obtain ⟨hc, r2, hr⟩ := (take4_git_iff c rest).mp hp
      exact hnm r2 hc hr
    rw [hasGit_cons c rest ht] at h
    rw [replaceAllGit_cons c rest ht, ih h]

/-- With at least three characters after the head, a 4-character prefix is
unaffected by whatever is appended. -/
theorem take4_append_big (c : Char) (r x : List Char) (h : 3 ≤ r.length) :
    (c :: (r ++ x)).take 4 = (c :: r).take 4 := by
  have : c :: (r ++ x) = (c :: r) ++ x := rfl
  rw [this, List.take_append_of_le_length (by simp; omega)]

/-- Appending a slash-headed continuation cannot create a ".git" prefix
where none existed. -/
theorem take4_append_slash (c : Char) (r q : List Char)
    (h : (c :: r).take 4 ≠ ['.', 'g', 'i', 't']) :
    (c :: (r ++ '/' :: q)).take 4 ≠ ['.', 'g', 'i', 't'] := by
  rcases r with _ | ⟨a, _ | ⟨b, _ | ⟨d, r2⟩⟩⟩
  · simp [List.take]
  · simp [List.take]
  · simp [List.take]
  · rw [take4_append_big c _ _ (by simp)]
    exact h

/-- Appending ".git" to a list cannot create a ".git" prefix at the
head where none existed, because the boundary characters clash. -/
theorem take4_append_dotgit (c : Char) (r : List Char)
    (h : (c :: r).take 4 ≠ ['.', 'g', 'i', 't']) :
    (c :: (r ++ ['.', 'g', 'i', 't'])).take 4 ≠ ['.', 'g', 'i', 't'] := by
  rcases r with _ | ⟨a, _ | ⟨b, _ | ⟨d, r2⟩⟩⟩
  · simp [List.take]
  · simp [List.take]
  · simp [List.take]
  · rw [take4_append_big c _ _ (by simp)]
    exact h

/-- Removal of ".git" occurrences distributes over a slash boundary:
no occurrence can span a '/'. -/
theorem replaceAllGit_append_slash :
    ∀ p q : List Char,
      replaceAllGit (p ++ '/' :: q) = replaceAllGit p ++ '/' :: replaceAllGit q := by
  intro p q
  induction p using replaceAllGit.induct with
  | case1 =>
    rw [List.nil_append, replaceAllGit_cons '/' q (fun hp => by
      obtain ⟨hc, _⟩ := (take4_git_iff _ _).mp hp
      exact absurd hc (by decide))]
    rfl
  | case2 rest ih =>
    simp only [List.cons_append]
    rw [replaceAllGit_git, replaceAllGit_git, ih]
  | case3 c rest hnm ih =>
    have ht : (c :: rest).take 4 ≠ ['.', 'g', 'i', 't'] := fun hp => by
      obtain ⟨hc, r2, hr⟩ := (take4_git_iff c rest).mp hp
      exact hnm r2 hc hr
    simp only [List.cons_append]
    rw [replaceAllGit_cons _ _ (take4_append_slash c rest q ht),
      replaceAllGit_cons c rest ht, ih]
    rfl

/-- Appending ".git" to a ".git"-free list and removing occurrences
removes exactly that suffix. -/
theorem replaceAllGit_append_dotgit :
    ∀ r : List Char, hasGit r = false →
      replaceAllGit (r ++ ['.', 'g', 'i', 't']) = r := by
  intro r
  induction r using replaceAllGit.induct with
  | case1 => intro _; rfl
  | case2 rest ih => intro h; rw [hasGit_git] at h; cases h
  | case3 c rest hnm ih =>
    intro h
    have ht : (c :: rest).take 4 ≠ ['.', 'g', 'i', 't'] := fun hp => by
      obtain ⟨hc, r2, hr⟩ := (take4_git_iff c rest).mp hp
      exact hnm r2 hc hr
    rw [hasGit_cons c rest ht] at h
    simp only [List.cons_append]
    rw [replaceAllGit_cons _ _ (take4_append_dotgit c rest ht), ih h]

/-- Splitting always yields at least one segment. -/
theorem splitSlash_ne_nil (l : List Char) : splitSlash l ≠ [] := by
  cases l with
  | nil => simp [splitSlash]
  | cons c r => by_cases h : c = '/' <;> simp [splitSlash, h]

/-- A slash-free list is one single segment. -/
theorem splitSlash_no_slash : ∀ l : List Char, '/' ∉ l → splitSlash l = [l] := by
  intro l
  induction l with
  | nil => intro _; rfl
  | cons c r ih =>
    intro h
    have hc : ¬ c = '/' := fun hc => h (by rw [hc]; exact List.mem_cons_self '/' r)
    have hr : '/' ∉ r := fun hm => h (List.mem_cons_of_mem c hm)
    simp [splitSlash, hc, ih hr]

/-- Splitting distributes over an explicit slash. -/
theorem splitSlash_append :
    ∀ x y : List Char, splitSlash (x ++ '/' :: y) = splitSlash x ++ splitSlash y := by
  intro x y
  induction x with
  | nil => simp [splitSlash]
  | cons c r ih =>
    by_cases hc : c = '/'
    · subst hc
      simp only [List.cons_append]
      simp [splitSlash, ih]
    · obtain ⟨a, as, hsp⟩ : ∃ a as, splitSlash r = a :: as := by
        cases hsp : splitSlash r with
        | nil => exact absurd hsp (splitSlash_ne_nil r)
        | cons a as => exact ⟨a, as, rfl⟩
      simp only [List.cons_append]
      simp [splitSlash, hc, ih, hsp]

/-- Stripping trailing slashes from a list ending in a slash drops it. -/
theorem rstripSlash_append_slash (x : List Char) :
    rstripSlash (x ++ ['/']) = rstripSlash x := by
  unfold rstripSlash
  rw [List.reverse_append]
  simp [List.dropWhile_cons]

/-- A list ending in a non-slash character is unchanged by stripping. -/
theorem rstripSlash_append_of_ne (x : List Char) (c : Char) (h : c ≠ '/') :
    rstripSlash (x ++ [c]) = x ++ [c] := by
  unfold rstripSlash
  rw [List.reverse_append]
  simp [List.dropWhile_cons, h]

/-- A list whose last character is not a slash is unchanged by
stripping. -/
theorem rstripSlash_eq_self (l : List Char) (c : Char)
    (hl : l.getLast? = some c) (hc : c ≠ '/') : rstripSlash l = l := by
  rcases List.eq_nil_or_concat l with rfl | ⟨L, b, hL⟩
  · cases hl
  · rw [List.concat_eq_append] at hL
    subst hL
    rw [List.getLast?_concat] at hl
    injection hl with hb
    exact rstripSlash_append_of_ne L b (hb ▸ hc)

/-- Stripped characters all come from the original list. -/
theorem mem_rstripSlash (l : List Char) (x : Char) (h : x ∈ rstripSlash l) :
    x ∈ l := by
  unfold rstripSlash at h
  rw [List.mem_reverse] at h
  have h2 := (List.dropWhile_sublist (fun c => c = '/')).subset h
  rwa [List.mem_reverse] at h2

/-- When the processed URL splits as a list of segments ending in two
known ones, the parser returns exactly those two. -/
theorem urlParser_of_parts (url : List Char) (S : List (List Char))
    (owner repo : List Char)
    (h : splitSlash (replaceAllGit (rstripSlash url)) = S ++ [owner, repo]) :
    urlParser url = Except.ok (owner, repo) := by
  unfold urlParser
  rw [dif_pos (by rw [h]; simp)]
  congr 1
  rw [Prod.mk.injEq]
  constructor
  · rw [List.get_eq_getElem]
    simp only [h, List.length_append, List.length_cons, List.length_nil]
    rw [List.getElem_append_right (by omega)]
    simp
  · rw [List.get_eq_getElem]
    simp only [h, List.length_append, List.length_cons, List.length_nil]
    rw [List.getElem_append_right (by omega)]
    simp

/-- Appending on the right preserves a known last element. -/
theorem getLast_append_right (l₁ l₂ : List Char) (c : Char)
    (h : l₂.getLast? = some c) : (l₁ ++ l₂).getLast? = some c := by
  rw [List.getLast?_append, h]
  rfl

/-! ## Claim theorems for the URL parser -/

/-- C4 counterexample: the parser does not strip only a trailing ".git"
suffix — on owner "a" and repo "b.gitc" it removes the inner ".git"
occurrence and returns "bc" instead of the unaltered segment. -/
theorem urlParser_inner_git_counterexample :
    urlParser "a/b.gitc".toList = Except.ok ("a".toList, "bc".toList) ∧
    "bc".toList ≠ "b.gitc".toList :=
  ⟨rfl, by decide⟩

/-- C4 amended: the parser removes every occurrence of ".git" anywhere in
the URL (not only a trailing suffix), so for well-formed URLs
prefix/owner/repo — optionally ending in ".git" and/or "/" — whose owner
and repo are non-empty, slash-free and do not contain ".git" as a
substring, parsing yields exactly (owner, repo). -/
theorem urlParser_wellformed_amended (p owner repo suf : List Char)
    (hsuf : suf = [] ∨ suf = ['.', 'g', 'i', 't'] ∨ suf = ['/'] ∨
      suf = ['.', 'g', 'i', 't', '/'])
    (ho : owner ≠ []) (hr : repo ≠ [])
    (hos : '/' ∉ owner) (hrs : '/' ∉ repo)
    (hog : hasGit owner = false) (hrg : hasGit repo = false) :
    urlParser (p ++ '/' :: (owner ++ '/' :: (repo ++ suf))) =
      Except.ok (owner, repo) := by
  have hlne : repo.getLast hr ≠ '/' := fun hh => hrs (hh ▸ List.getLast_mem hr)
  have core1 : splitSlash (replaceAllGit (p ++ '/' :: (owner ++ '/' :: repo))) =
      splitSlash (replaceAllGit p) ++ [owner, repo] := by
    rw [replaceAllGit_append_slash, replaceAllGit_append_slash,
      replaceAllGit_of_not_hasGit owner hog, replaceAllGit_of_not_hasGit repo hrg,
      splitSlash_append, splitSlash_append, splitSlash_no_slash owner hos,
      splitSlash_no_slash repo hrs]
    rfl
  have core2 : splitSlash (replaceAllGit
        (p ++ '/' :: (owner ++ '/' :: (repo ++ ['.', 'g', 'i', 't'])))) =
      splitSlash (replaceAllGit p) ++ [owner, repo] := by
    rw [replaceAllGit_append_slash, replaceAllGit_append_slash,
      replaceAllGit_of_not_hasGit owner hog, replaceAllGit_append_dotgit repo hrg,
      splitSlash_append, splitSlash_append, splitSlash_no_slash owner hos,
      splitSlash_no_slash repo hrs]
    rfl
  have hbase : (p ++ '/' :: (owner ++ '/' :: repo)).getLast? =
      some (repo.getLast hr) := by
    have hshape : p ++ '/' :: (owner ++ '/' :: repo) =
        (p ++ '/' :: (owner ++ ['/'])) ++ repo := by simp
    rw [hshape]
    exact getLast_append_right _ _ _ (List.getLast?_eq_getLast repo hr)
  have hgitlast : (p ++ '/' :: (owner ++ '/' :: (repo ++ ['.', 'g', 'i', 't']))).getLast? =
      some 't' := by
    have hshape : p ++ '/' :: (owner ++ '/' :: (repo ++ ['.', 'g', 'i', 't'])) =
        (p ++ '/' :: (owner ++ ['/'])) ++ (repo ++ ['.', 'g', 'i', 't'])  := by simp
    rw [hshape]
    exact getLast_append_right _ _ _
      (getLast_append_right _ _ _ (by rfl))
  rcases hsuf with rfl | rfl | rfl | rfl
  · refine urlParser_of_parts _ (splitSlash (replaceAllGit p)) owner repo ?_
    rw [List.append_nil, rstripSlash_eq_self _ _ hbase hlne]
    exact core1
  · refine urlParser_of_parts _ (splitSlash (replaceAllGit p)) owner repo ?_
    rw [rstripSlash_eq_self _ _ hgitlast (by decide)]
    exact core2
  · refine urlParser_of_parts _ (splitSlash (replaceAllGit p)) owner repo ?_
    have hshape : p ++ '/' :: (owner ++ '/' :: (repo ++ ['/'])) =
        (p ++ '/' :: (owner ++ '/' :: repo)) ++ ['/'] := by simp
    rw [hshape, rstripSlash_append_slash,
      rstripSlash_eq_self _ _ hbase hlne]
    exact core1
  · refine urlParser_of_parts _ (splitSlash (replaceAllGit p)) owner repo ?_
    have hshape : p ++ '/' :: (owner ++ '/' :: (repo ++ ['.', 'g', 'i', 't', '/'])) =
        (p ++ '/' :: (owner ++ '/' :: (repo ++ ['.', 'g', 'i', 't']))) ++ ['/'] := by
      simp
    rw [hshape, rstripSlash_append_slash,
      rstripSlash_eq_self _ _ hgitlast (by decide)]
    exact core2

/-- C4 witness: a concrete well-formed URL with a ".git" suffix parses to
its owner and repo segments. -/
theorem urlParser_wellformed_amended_example :
    urlParser ("g.co".toList ++ '/' ::
        ("o".toList ++ '/' :: ("r".toList ++ ['.', 'g', 'i', 't']))) =
      Except.ok ("o".toList, "r".toList) :=
  urlParser_wellformed_amended "g.co".toList "o".toList "r".toList
    ['.', 'g', 'i', 't'] (Or.inr (Or.inl rfl)) (by decide) (by decide)
    (by decide) (by decide) rfl rfl

/-- C5 counterexample: on an input with no slash the parser's failure is
the IndexError outcome of `parts[-2]`, not an InvalidRepositoryReference
error — no code path produces the latter. -/
theorem urlParser_short_counterexample :
    urlParser "nourl".toList = Except.error ParseFailure.indexError ∧
    (Except.error ParseFailure.indexError :
        Except ParseFailure (List Char × List Char)) ≠
      Except.error ParseFailure.invalidRepositoryReference :=
  ⟨rfl, by simp⟩

/-- C5 amended: on every malformed URL with fewer than two segments,
parsing fails with the IndexError of the out-of-range negative index, not
with a distinct InvalidRepositoryReference error, which does not exist in
the code.  "Fewer than two segments" is having no slash left once the
trailing slashes are stripped: the subsequent ".git" removal never deletes
a slash, so exactly these URLs split into a single segment. -/
theorem urlParser_short_input_index_error (url : List Char)
    (h : '/' ∉ rstripSlash url) :
    urlParser url = Except.error ParseFailure.indexError := by
  have h2 : '/' ∉ replaceAllGit (rstripSlash url) := fun hm =>
    h (mem_replaceAllGit _ '/' hm)
  unfold urlParser
  rw [dif_neg (by rw [splitSlash_no_slash _ h2]; simp)]

/-- C5 witness: an input whose only slash is trailing strips to a single
segment and fails with the IndexError outcome. -/
theorem urlParser_short_input_index_error_example :
    urlParser "abc/".toList = Except.error ParseFailure.indexError :=
  urlParser_short_input_index_error "abc/".toList (by decide)

/-! ## Helper lemmas about base64 and UTF-8 -/

/-- The alphabet lookup inverts the encoding table on six-bit values. -/
theorem b64value_b64char : ∀ n : Nat, n < 64 → b64value (b64char n) = n := by
  decide

/-- No alphabet character is the padding character. -/
theorem b64char_ne_pad : ∀ n : Nat, n < 64 → b64char n ≠ '=' := by
  decide

/-- Dividing off a small remainder: quotient recovery. -/
theorem addMulDiv (x y k : Nat) (hk : 0 < k) (hy : y < k) : (x * k + y) / k = x := by
  rw [Nat.add_comm, Nat.mul_comm, Nat.add_mul_div_left _ _ hk, Nat.div_eq_of_lt hy,
    Nat.zero_add]

/-- Taking a small remainder back out of a multiple. -/
theorem addMulMod (x y k : Nat) (hy : y < k) : (x * k + y) % k = y := by
  rw [Nat.add_comm, Nat.add_mul_mod_self_right, Nat.mod_eq_of_lt hy]

/-- Base64 decoding inverts base64 encoding on byte lists. -/
theorem b64_roundtrip : ∀ bs : List Nat, (∀ b ∈ bs, b < 256) →
    b64decodeBytes (b64encodeBytes bs) = bs := by
  intro bs
  induction bs using b64encodeBytes.induct with
  | case1 => intro _; rfl
  | case2 a =>
    intro h
    have ha : a < 256 := h a (List.mem_cons_self a [])
    have h1 : b64value (b64char (a / 4)) = a / 4 := b64value_b64char _ (by omega)
    have h2 : b64value (b64char (a % 4 * 16)) = a % 4 * 16 :=
      b64value_b64char _ (by omega)
    have e1 : a % 4 * 16 / 16 = a % 4 := Nat.mul_div_cancel _ (by norm_num)
    simp [b64encodeBytes, b64decodeBytes, h1, h2, e1]
    omega
  | case3 a b =>
    intro h
    have ha : a < 256 := h a (by simp)
    have hb : b < 256 := h b (by simp)
    have h1 : b64value (b64char (a / 4)) = a / 4 := b64value_b64char _ (by omega)
    have h2 : b64value (b64char (a % 4 * 16 + b / 16)) = a % 4 * 16 + b / 16 :=
      b64value_b64char _ (by omega)
    have h3 : b64value (b64char (b % 16 * 4)) = b % 16 * 4 :=
      b64value_b64char _ (by omega)
    have e1 : (a % 4 * 16 + b / 16) / 16 = a % 4 :=
      addMulDiv _ _ _ (by norm_num) (by omega)
    have e2 : (a % 4 * 16 + b / 16) % 16 = b / 16 := addMulMod _ _ _ (by omega)
    have e3 : b % 16 * 4 / 4 = b % 16 := Nat.mul_div_cancel _ (by norm_num)
    simp [b64encodeBytes, b64decodeBytes,
      b64char_ne_pad (b % 16 * 4) (by omega), h1, h2, h3, e1, e2, e3]
    omega
  | case4 a b c rest ih =>
    intro h
    have ha : a < 256 := h a (by simp)
    have hb : b < 256 := h b (by simp)
    have hc : c < 256 := h c (by simp)
    have h1 : b64value (b64char (a / 4)) = a / 4 := b64value_b64char _ (by omega)
    have h2 : b64value (b64char (a % 4 * 16 + b / 16)) = a % 4 * 16 + b / 16 :=
      b64value_b64char _ (by omega)
    have h3 : b64value (b64char (b % 16 * 4 + c / 64)) = b % 16 * 4 + c / 64 :=
      b64value_b64char _ (by omega)
    have h4 : b64value (b64char (c % 64)) = c % 64 := b64value_b64char _ (by omega)
    have hrest : ∀ x ∈ rest, x < 256 := fun x hx => h x (by simp [hx])
    have e1 : (a % 4 * 16 + b / 16) / 16 = a % 4 :=
      addMulDiv _ _ _ (by norm_num) (by omega)
    have e2 : (a % 4 * 16 + b / 16) % 16 = b / 16 := addMulMod _ _ _ (by omega)
    have e3 : (b % 16 * 4 + c / 64) / 4 = b % 16 :=
      addMulDiv _ _ _ (by norm_num) (by omega)
    have e4 : (b % 16 * 4 + c / 64) % 4 = c / 64 := addMulMod _ _ _ (by omega)
    simp [b64encodeBytes, b64decodeBytes,
      b64char_ne_pad (b % 16 * 4 + c / 64) (by omega),
      b64char_ne_pad (c % 64) (by omega), h1, h2, h3, h4, ih hrest,
      e1, e2, e3, e4]
    omega

/-- Every byte of a UTF-8 encoding of a valid scalar value is below
256. -/
theorem utf8EncodeChar_bytes_lt (cp : Nat) (h : ValidCp cp) :
    ∀ x ∈ utf8EncodeChar cp, x < 256 := by
  obtain ⟨hlt, _⟩ := h
  intro x hx
  unfold utf8EncodeChar at hx
  split at hx
  · simp at hx; omega
  · split at hx
    · simp at hx; rcases hx with rfl | rfl <;> omega
    · split at hx
      · simp at hx; rcases hx with rfl | rfl | rfl <;> omega
      · simp at hx; rcases hx with rfl | rfl | rfl | rfl <;> omega

/-- Every byte of a UTF-8 encoding of a valid text is below 256. -/
theorem utf8Encode_bytes_lt : ∀ l : List Nat, (∀ cp ∈ l, ValidCp cp) →
    ∀ x ∈ utf8Encode l, x < 256 := by
  intro l
  induction l with
  | nil => intro _ x hx; cases hx
  | cons c r ih =>
    intro h x hx
    rcases List.mem_append.mp hx with hx | hx
    · exact utf8EncodeChar_bytes_lt c (h c (by simp)) x hx
    · exact ih (fun cp hcp => h cp (by simp [hcp])) x hx

/-- One decoding step on an ASCII byte. -/
theorem utf8_decode_one (errf : Nat → List Nat) (b : Nat) (l : List Nat)
    (hb : b < 128) :
    utf8DecodeWith errf (b :: l) = b :: utf8DecodeWith errf l := by
  conv_lhs => rw [utf8DecodeWith.eq_def]
  simp only
  rw [if_pos hb]

/-- One decoding step on a well-formed two-byte sequence. -/
theorem utf8_decode_two (errf : Nat → List Nat) (b c1 : Nat) (l : List Nat)
    (hb : 194 ≤ b ∧ b < 224) (hc1 : 128 ≤ c1 ∧ c1 < 192) :
    utf8DecodeWith errf (b :: c1 :: l) =
      ((b - 192) * 64 + (c1 - 128)) :: utf8DecodeWith errf l := by
  conv_lhs => rw [utf8DecodeWith.eq_def]
  simp only
  rw [if_neg (by omega), if_neg (by omega), if_pos (by omega), if_pos hc1]

/-- One decoding step on a well-formed three-byte sequence. -/
theorem utf8_decode_three (errf : Nat → List Nat) (b c1 c2 : Nat) (l : List Nat)
    (hb : 224 ≤ b ∧ b < 240)
    (hc1 : if b = 224 then 160 ≤ c1 ∧ c1 < 192
      else if b = 237 then 128 ≤ c1 ∧ c1 < 160
      else 128 ≤ c1 ∧ c1 < 192)
    (hc2 : 128 ≤ c2 ∧ c2 < 192) :
    utf8DecodeWith errf (b :: c1 :: c2 :: l) =
      ((b - 224) * 4096 + (c1 - 128) * 64 + (c2 - 128)) ::
        utf8DecodeWith errf l := by
  conv_lhs => rw [utf8DecodeWith.eq_def]
  simp only
  rw [if_neg (by omega), if_neg (by omega), if_neg (by omega), if_pos (by omega),
    if_pos hc1, if_pos hc2]

/-- One decoding step on a well-formed four-byte sequence. -/
theorem utf8_decode_four (errf : Nat → List Nat) (b c1 c2 c3 : Nat) (l : List Nat)
    (hb : 240 ≤ b ∧ b < 245)
    (hc1 : if b = 240 then 144 ≤ c1 ∧ c1 < 192
      else if b = 244 then 128 ≤ c1 ∧ c1 < 144
      else 128 ≤ c1 ∧ c1 < 192)
    (hc2 : 128 ≤ c2 ∧ c2 < 192) (hc3 : 128 ≤ c3 ∧ c3 < 192) :
    utf8DecodeWith errf (b :: c1 :: c2 :: c3 :: l) =
      ((b - 240) * 262144 + (c1 - 128) * 4096 + (c2 - 128) * 64 + (c3 - 128)) ::
        utf8DecodeWith errf l := by
  conv_lhs => rw [utf8DecodeWith.eq_def]
  simp only
  rw [if_neg (by omega), if_neg (by omega), if_neg (by omega), if_neg (by omega),
    if_pos (by omega), if_pos hc1, if_pos hc2, if_pos hc3]

/-- One decoding step on a byte no sequence can start with: the error
handler fires for that single byte and decoding resumes right after
it. -/
theorem utf8_decode_bad_lead (errf : Nat → List Nat) (b : Nat) (l : List Nat)
    (hb : 245 ≤ b) :
    utf8DecodeWith errf (b :: l) = errf 1 ++ utf8DecodeWith errf l := by
  conv_lhs => rw [utf8DecodeWith.eq_def]
  simp only
  rw [if_neg (by omega), if_neg (by omega), if_neg (by omega), if_neg (by omega),
    if_neg (by omega)]

/-- Decoding a valid encoding followed by anything yields the text
followed by the decoding of the remainder. -/
theorem utf8_decode_encode_append (errf : Nat → List Nat) :
    ∀ l tail : List Nat, (∀ cp ∈ l, ValidCp cp) →
      utf8DecodeWith errf (utf8Encode l ++ tail) =
        l ++ utf8DecodeWith errf tail := by
  intro l
  induction l with
  | nil => intro tail _; rfl
  | cons c r ih =>
    intro tail h
    have hc : ValidCp c := h c (by simp)
    obtain ⟨hlt, hsur⟩ := hc
    have hstep : utf8Encode (c :: r) ++ tail =
        utf8EncodeChar c ++ (utf8Encode r ++ tail) := by
      simp [utf8Encode]
    rw [hstep]
    have htail := ih tail (fun cp hcp => h cp (by simp [hcp]))
    by_cases h1 : c < 128
    · rw [show utf8EncodeChar c = [c] from by simp [utf8EncodeChar, h1]]
      rw [List.singleton_append, utf8_decode_one errf c _ h1, htail]
      rfl
    · by_cases h2 : c < 2048
      · rw [show utf8EncodeChar c = [192 + c / 64, 128 + c % 64] from by
          simp [utf8EncodeChar, h1, h2]]
        simp only [List.cons_append, List.nil_append]
        rw [utf8_decode_two errf _ _ _ (by omega) (by omega), htail,
          show (192 + c / 64 - 192) * 64 + (128 + c % 64 - 128) = c from by omega]
      · by_cases h3 : c < 65536
        · rw [show utf8EncodeChar c =
              [224 + c / 4096, 128 + c / 64 % 64, 128 + c % 64] from by
            simp [utf8EncodeChar, h1, h2, h3]]
          simp only [List.cons_append, List.nil_append]
          rw [utf8_decode_three errf _ _ _ _ (by omega)
            (by split_ifs <;> omega) (by omega), htail,
            show (224 + c / 4096 - 224) * 4096 + (128 + c / 64 % 64 - 128) * 64 +
              (128 + c % 64 - 128) = c from by omega]
        · rw [show utf8EncodeChar c =
              [240 + c / 262144, 128 + c / 4096 % 64, 128 + c / 64 % 64,
                128 + c % 64] from by
            simp [utf8EncodeChar, h1, h2, h3]]
          simp only [List.cons_append, List.nil_append]
          rw [utf8_decode_four errf _ _ _ _ _ (by omega)
            (by split_ifs <;> omega) (by omega) (by omega), htail,
            show (240 + c / 262144 - 240) * 262144 + (128 + c / 4096 % 64 - 128) * 4096 +
              (128 + c / 64 % 64 - 128) * 64 + (128 + c % 64 - 128) = c from by omega]

/-- Decoding an empty byte list yields the empty text. -/
theorem utf8_decode_nil (errf : Nat → List Nat) : utf8DecodeWith errf [] = [] := by
  rw [utf8DecodeWith.eq_def]

/-- Decoding inverts encoding on valid texts, whatever the error
handler (it never fires). -/
theorem utf8_roundtrip (errf : Nat → List Nat) (l : List Nat)
    (h : ∀ cp ∈ l, ValidCp cp) : utf8DecodeWith errf (utf8Encode l) = l := by
  have h2 := utf8_decode_encode_append errf l [] h
  rwa [List.append_nil, utf8_decode_nil, List.append_nil] at h2

/-! ## Claim theorems for file-content decoding -/

/-- C7 counterexample: for the response whose base64 content decodes to
the bytes 255, 65 the code returns content [65] — the undecodable byte is
deleted — whereas decoding with a per-byte replacement marker, as the
claim describes, would give [65533, 65]. -/
theorem get_file_content_replace_counterexample :
    get_file_content "f" [("content", ['/', '0', 'E', '='])] =
      FileContentResult.decoded "f" [65] ∧
    utf8DecodeWith replaceEachByteHandler
        (b64decodeBytes ['/', '0', 'E', '=']) = [65533, 65] ∧
    ([65] : List Nat) ≠ [65533, 65] := by
  have hb : b64decodeBytes ['/', '0', 'E', '='] = [255, 65] := rfl
  refine ⟨?_, ?_, by decide⟩
  · have h1 : get_file_content "f" [("content", ['/', '0', 'E', '='])] =
        FileContentResult.decoded "f" (utf8DecodeWith ignoreHandler [255, 65]) :=
      rfl
    rw [h1, utf8_decode_bad_lead _ _ _ (by norm_num),
      utf8_decode_one _ _ _ (by norm_num), utf8_decode_nil]
    rfl
  · rw [hb, utf8_decode_bad_lead _ _ _ (by norm_num),
      utf8_decode_one _ _ _ (by norm_num), utf8_decode_nil]
    rfl

/-- C7 amended: the code decodes with errors="ignore", so content is the
text obtained by deleting each undecodable byte: around an undecodable
byte 255 the two valid texts are concatenated with nothing in between. -/
theorem get_file_content_drops_bad_bytes (fp : String) (cps1 cps2 : List Nat)
    (h1 : ∀ cp ∈ cps1, ValidCp cp) (h2 : ∀ cp ∈ cps2, ValidCp cp) :
    get_file_content fp [("content",
        b64encodeBytes (utf8Encode cps1 ++ 255 :: utf8Encode cps2))] =
      FileContentResult.decoded fp (cps1 ++ cps2) := by
  have hbytes : ∀ x ∈ utf8Encode cps1 ++ 255 :: utf8Encode cps2, x < 256 := by
    intro x hx
    rcases List.mem_append.mp hx with hx | hx
    · exact utf8Encode_bytes_lt cps1 h1 x hx
    · rcases List.mem_cons.mp hx with rfl | hx
      · norm_num
      · exact utf8Encode_bytes_lt cps2 h2 x hx
  have hget : get_file_content fp [("content",
      b64encodeBytes (utf8Encode cps1 ++ 255 :: utf8Encode cps2))] =
      FileContentResult.decoded fp (utf8DecodeWith ignoreHandler
        (b64decodeBytes (b64encodeBytes
          (utf8Encode cps1 ++ 255 :: utf8Encode cps2)))) := rfl
  rw [hget, b64_roundtrip _ hbytes,
    utf8_decode_encode_append ignoreHandler cps1 _ h1,
    utf8_decode_bad_lead _ _ _ (by norm_num),
    utf8_roundtrip ignoreHandler cps2 h2]
  rfl

/-- C7 witness: one bad byte between the encodings of two ASCII
characters disappears from the decoded content. -/
theorem get_file_content_drops_bad_bytes_example :
    get_file_content "f" [("content",
        b64encodeBytes (utf8Encode [104] ++ 255 :: utf8Encode [105]))] =
      FileContentResult.decoded "f" ([104] ++ [105]) :=
  get_file_content_drops_bad_bytes "f" [104] [105] (by decide) (by decide)

/-- C8: encoding a valid text with UTF-8 and base64 and decoding it
through the logic of get_file_content reproduces the text exactly. -/
theorem get_file_content_roundtrip (cps : List Nat)
    (h : ∀ cp ∈ cps, ValidCp cp) (fp : String) :
    get_file_content fp [("content", b64encodeBytes (utf8Encode cps))] =
      FileContentResult.decoded fp cps := by
  have hget : get_file_content fp [("content",
      b64encodeBytes (utf8Encode cps))] =
      FileContentResult.decoded fp (utf8DecodeWith ignoreHandler
        (b64decodeBytes (b64encodeBytes (utf8Encode cps)))) := rfl
  rw [hget, b64_roundtrip _ (utf8Encode_bytes_lt cps h),
    utf8_roundtrip ignoreHandler cps h]

/-- C8 witness: a two-character ASCII text survives the round trip. -/
theorem get_file_content_roundtrip_example :
    get_file_content "f" [("content", b64encodeBytes (utf8Encode [104, 105]))] =
      FileContentResult.decoded "f" [104, 105] :=
  get_file_content_roundtrip [104, 105] (by decide) "f"

/-! ## Claim theorems for the credential -/

/-- C9 counterexample: with the credential absent from the environment,
startup does not fail — the module-level headers are still built, with the
literal text "Bearer None" as the Authorization value, exactly the silent
missing-credential request the claim rules out. -/
theorem missing_token_counterexample :
    GITHUB_TOKEN [] = none ∧
    HEADERS [] = [("Authorization", "Bearer None"),
      ("Accept", "application/vnd.github+json")] :=
  ⟨rfl, rfl⟩

/-- C9 amended: when the credential value is absent from the process
environment, the program does not fail fast; it constructs the request
headers anyway, with the Authorization header "Bearer None" (os.getenv
returns None and the f-string renders it). -/
theorem missing_token_bearer_none (environment : List (String × String))
    (h : GITHUB_TOKEN environment = none) :
    HEADERS environment = [("Authorization", "Bearer None"),
      ("Accept", "application/vnd.github+json")] := by
  simp [HEADERS, pyStr, h]

/-- C9 witness: an environment without GITHUB_TOKEN yields the
"Bearer None" header. -/
theorem missing_token_bearer_none_example :
    HEADERS [("PATH", "/usr/bin")] = [("Authorization", "Bearer None"),
      ("Accept", "application/vnd.github+json")] :=
  missing_token_bearer_none [("PATH", "/usr/bin")] rfl

end GithubTool
